import Mathlib

/-!
Verification of the sailfish runtime filter library
(`src/sailfish/src/runtime/filter.rs`).

The Buffer is modelled at two granularities, matching what each filter
observes:

* `truncate` works on byte positions of the UTF-8 encoded buffer
  (`old_len + limit`, `str::is_char_boundary`), so it is modelled on
  `List Nat` of byte values;
* `upper`, `lower` and `trim` rewrite the appended slice through
  character-level `str` operations (`to_uppercase`, `to_lowercase`,
  `trim`), so they are modelled on `List Char`.

A wrapped renderable value is modelled by the function describing the
effect of its `render` (resp. `render_escaped`) call on the buffer:
`inner : Buffer → Except String Buffer`, where `Except.error` models a
returned `RenderError`.
-/

namespace Sailfish

/-- Rust `str::is_char_boundary` applied to the byte list `b` at index `i`:
true at 0, at `b.length`, and at any index holding a byte that is not a
UTF-8 continuation byte (`(byte as i8) >= -0x40`, i.e. `byte < 0x80` or
`byte ≥ 0xC0`). -/
def isCharBoundary (b : List Nat) (i : Nat) : Bool :=
  if i = 0 then true
  else
    match b[i]? with
    | some c => decide (c < 0x80) || decide (0xC0 ≤ c)
    | none => decide (i = b.length)

/-- The boundary-search loop of `truncate_impl`
(`while !tmp.is_char_boundary(pos) { pos += 1; }`), written with explicit
fuel to make it structurally recursive.  `findBoundary` supplies fuel
`b.length + 1 - pos`, which dominates the loop's iteration count because
`b.length` is always a char boundary; the zero-fuel branch is unreachable
from `findBoundary`. -/
def findBoundaryFuel : Nat → List Nat → Nat → Nat
  | 0, _, pos => pos
  | fuel + 1, b, pos =>
    if isCharBoundary b pos then pos
    else if pos < b.length then findBoundaryFuel fuel b (pos + 1)
    else pos

/-- First `is_char_boundary` position at or after `pos`. -/
def findBoundary (b : List Nat) (pos : Nat) : Nat :=
  findBoundaryFuel (b.length + 1 - pos) b pos

/-- The truncation marker `"..."`, as UTF-8 bytes. -/
def marker : List Nat := [46, 46, 46]

/-- `truncate_impl` from `filter.rs`: `pos = old_len + limit`; if the buffer
is longer than `pos`, advance `pos` to the next char boundary, shrink the
buffer to `pos` and push `"..."`; otherwise succeed unchanged, unless the
buffer has become shorter than `old_len`, which is reported as an error. -/
def truncate_impl (b : List Nat) (old_len limit : Nat) : Except String (List Nat) :=
  let pos := old_len + limit
  if b.length > pos then
    Except.ok (b.take (findBoundary b pos) ++ marker)
  else if b.length ≥ old_len then
    Except.ok b
  else
    Except.error "buffer size shrinked while rendering"

/-- `Truncate::render`: record `old_len = b.len()`, delegate to the wrapped
value's render (modelled by `inner`), then post-process with
`truncate_impl`. -/
def truncateRender (inner : List Nat → Except String (List Nat)) (limit : Nat)
    (b : List Nat) : Except String (List Nat) :=
  match inner b with
  | Except.error e => Except.error e
  | Except.ok b2 => truncate_impl b2 b.length limit

/-- The `truncate` constructor's masking of its limit argument,
`limit &= std::usize::MAX >> 1`, on a 64-bit target. -/
def truncateCtorLimit (limit : Nat) : Nat :=
  Nat.land limit ((2 ^ 64 - 1) >>> 1)

/-- ASCII fragment of the character mapping of Rust `str::to_uppercase`.
Only the ASCII range is modelled: the mapping is exact on ASCII input, and
no Unicode uppercasing maps any character to a lowercase ASCII letter, so
the case-related claims proved below keep their truth value under this
restriction. -/
def toUpperChar (c : Char) : Char :=
  if 97 ≤ c.toNat ∧ c.toNat ≤ 122 then Char.ofNat (c.toNat - 32) else c

/-- ASCII fragment of the character mapping of Rust `str::to_lowercase`;
see `toUpperChar` for the modelling note. -/
def toLowerChar (c : Char) : Char :=
  if 65 ≤ c.toNat ∧ c.toNat ≤ 90 then Char.ofNat (c.toNat + 32) else c

/-- `Upper::render`: record `old_len`, delegate, then replace the appended
slice by its uppercased form (`s = b[old_len..].to_uppercase();
set_len(old_len); push_str(s)`). -/
def upperRender (inner : List Char → Except String (List Char))
    (b : List Char) : Except String (List Char) :=
  match inner b with
  | Except.error e => Except.error e
  | Except.ok b2 => Except.ok (b2.take b.length ++ (b2.drop b.length).map toUpperChar)

/-- `Lower::render`: as `upperRender` with `to_lowercase`. -/
def lowerRender (inner : List Char → Except String (List Char))
    (b : List Char) : Except String (List Char) :=
  match inner b with
  | Except.error e => Except.error e
  | Except.ok b2 => Except.ok (b2.take b.length ++ (b2.drop b.length).map toLowerChar)

/-- `Lower::render_escaped`: delegates to the wrapped value's
`render_escaped` (modelled by `innerEsc`), then lowercases the appended
slice. -/
def lowerRenderEscaped (innerEsc : List Char → Except String (List Char))
    (b : List Char) : Except String (List Char) :=
  match innerEsc b with
  | Except.error e => Except.error e
  | Except.ok b2 => Except.ok (b2.take b.length ++ (b2.drop b.length).map toLowerChar)

/-- Modelled from the spec: the Escaper's per-character substitution
(`escape_to_buf`, whose source `src/runtime/escape.rs` is not under
`src/`): exactly the five markup-significant characters are replaced
(`&`→`&amp;`, `<`→`&lt;`, `>`→`&gt;`, `"`→`&quot;`, `'`→`&#39;`), all
other characters pass through unchanged. -/
def escapeChar (c : Char) : List Char :=
  if c = '&' then ['&', 'a', 'm', 'p', ';']
  else if c = '<' then ['&', 'l', 't', ';']
  else if c = '>' then ['&', 'g', 't', ';']
  else if c = '"' then ['&', 'q', 'u', 'o', 't', ';']
  else if c = '\'' then ['&', '#', '3', '9', ';']
  else [c]

/-- Escaping a character run: each character substituted in order. -/
def escapeStr (s : List Char) : List Char :=
  (s.map escapeChar).flatten

/-- Modelled from the spec: the default `render_escaped` of a plain string
value (its `Render` impl is not under `src/`): it appends the escaped form
of the string to the buffer. -/
def strRenderEscaped (s : List Char) (b : List Char) : Except String (List Char) :=
  Except.ok (b ++ escapeStr s)

/-- Rust `char::is_whitespace`: the Unicode `White_Space` code points. -/
def isRustWhitespace (c : Char) : Bool :=
  decide (0x09 ≤ c.toNat ∧ c.toNat ≤ 0x0D) || decide (c.toNat = 0x20) ||
  decide (c.toNat = 0x85) || decide (c.toNat = 0xA0) ||
  decide (c.toNat = 0x1680) || decide (0x2000 ≤ c.toNat ∧ c.toNat ≤ 0x200A) ||
  decide (c.toNat = 0x2028) || decide (c.toNat = 0x2029) ||
  decide (c.toNat = 0x202F) || decide (c.toNat = 0x205F) ||
  decide (c.toNat = 0x3000)

/-- Rust `str::trim_start`: drop the leading whitespace run. -/
def rustTrimStart (s : List Char) : List Char :=
  s.dropWhile isRustWhitespace

/-- Rust `str::trim_end`: drop the trailing whitespace run. -/
def rustTrimEnd : List Char → List Char
  | [] => []
  | c :: cs =>
    let r := rustTrimEnd cs
    if r.isEmpty && isRustWhitespace c then [] else c :: r

/-- Rust `str::trim`: both ends. -/
def rustTrim (s : List Char) : List Char :=
  rustTrimEnd (rustTrimStart s)

/-- `trim_impl` from `filter.rs`: replaces the appended slice
`b[old_len..]` by its trimmed form (the in-place overlapping copy plus
`_set_len` is modelled by its functional effect).  The slice expression
`&b.as_str()[old_len..]` panics when `old_len` exceeds the buffer's
length — only a `debug_assert!` guards it — which is modelled by `none`. -/
def trim_impl (b : List Char) (old_len : Nat) : Option (List Char) :=
  if old_len ≤ b.length then
    some (b.take old_len ++ rustTrim (b.drop old_len))
  else
    none

/-- `Trim::render`: record `old_len = b.len()`, delegate (propagating any
`RenderError`), then post-process with `trim_impl`; the post-processing
itself has no error path, only the possible panic inside `trim_impl`. -/
def trimRender (inner : List Char → Except String (List Char))
    (b : List Char) : Except String (Option (List Char)) :=
  match inner b with
  | Except.error e => Except.error e
  | Except.ok b2 => Except.ok (trim_impl b2 b.length)

/-! ### Basic facts about char boundaries and the boundary search -/

theorem isCharBoundary_zero (b : List Nat) : isCharBoundary b 0 = true := by
  simp [isCharBoundary]

theorem isCharBoundary_length (b : List Nat) : isCharBoundary b b.length = true := by
  unfold isCharBoundary
  by_cases h : b.length = 0
  · simp [h]
  · rw [if_neg h]
    have : b[b.length]? = none := by
      simp
    simp [this]

theorem le_length_of_isCharBoundary {b : List Nat} {i : Nat}
    (h : isCharBoundary b i = true) : i ≤ b.length := by
  by_cases hi : i ≤ b.length
  · exact hi
  · exfalso
    unfold isCharBoundary at h
    rw [if_neg (by omega)] at h
    have hn : b[i]? = none := by
      rw [List.getElem?_eq_none_iff]
      omega
    rw [hn] at h
    simp at h
    omega

theorem findBoundaryFuel_spec (fuel : Nat) : ∀ (b : List Nat) (pos : Nat),
    b.length - pos < fuel → pos ≤ b.length →
    pos ≤ findBoundaryFuel fuel b pos ∧
    isCharBoundary b (findBoundaryFuel fuel b pos) = true ∧
    ∀ j, pos ≤ j → j < findBoundaryFuel fuel b pos → isCharBoundary b j = false := by
  induction fuel with
  | zero => intro b pos h _; omega
  | succ fuel ih =>
    intro b pos hfuel hpos
    unfold findBoundaryFuel
    by_cases hb : isCharBoundary b pos
    · rw [if_pos hb]
      exact ⟨Nat.le_refl _, hb, fun j h1 h2 => by omega⟩
    · have hlt : pos < b.length := by
        rcases Nat.eq_or_lt_of_le hpos with he | hl
        · exact absurd (he ▸ isCharBoundary_length b) hb
        · exact hl
      rw [if_neg hb, if_pos hlt]
      obtain ⟨h1, h2, h3⟩ := ih b (pos + 1) (by omega) (by omega)
      refine ⟨by omega, h2, fun j hj1 hj2 => ?_⟩
      rcases Nat.eq_or_lt_of_le hj1 with he | hl
      · rw [← he]
        exact Bool.eq_false_iff.mpr hb
      · exact h3 j hl hj2

theorem findBoundary_spec (b : List Nat) (pos : Nat) (hpos : pos ≤ b.length) :
    pos ≤ findBoundary b pos ∧
    isCharBoundary b (findBoundary b pos) = true ∧
    ∀ j, pos ≤ j → j < findBoundary b pos → isCharBoundary b j = false := by
  unfold findBoundary
  exact findBoundaryFuel_spec (b.length + 1 - pos) b pos (by omega) hpos

theorem findBoundary_le_length (b : List Nat) (pos : Nat) (hpos : pos ≤ b.length) :
    findBoundary b pos ≤ b.length :=
  le_length_of_isCharBoundary (findBoundary_spec b pos hpos).2.1

theorem findBoundary_min {b : List Nat} {pos j : Nat} (hpos : pos ≤ b.length)
    (hj : pos ≤ j) (hb : isCharBoundary b j = true) : findBoundary b pos ≤ j := by
  by_contra h
  push_neg at h
  have := (findBoundary_spec b pos hpos).2.2 j hj h
  rw [hb] at this
  simp at this

/-! ### C3, C9: the error branch and the constructor's limit masking -/

/-- C3: `truncate` reports an error exactly when the wrapped value's render
left the Buffer strictly shorter than the length `old_len` recorded at
entry, independent of the limit value; otherwise it succeeds. -/
theorem truncate_error_iff_shrunk (b : List Nat) (old_len limit : Nat) :
    (∃ e, truncate_impl b old_len limit = Except.error e) ↔ b.length < old_len := by
  unfold truncate_impl
  by_cases h1 : b.length > old_len + limit
  · simp only [h1, if_pos]
    constructor
    · rintro ⟨e, he⟩
      cases he
    · intro h
      omega
  · rw [if_neg (by omega)]
    by_cases h2 : b.length ≥ old_len
    · rw [if_pos h2]
      constructor
      · rintro ⟨e, he⟩
        cases he
      · intro h
        omega
    · rw [if_neg h2]
      constructor
      · intro _
        omega
      · intro _
        exact ⟨_, rfl⟩

/-- C9: the `truncate` constructor clears the top bit of its limit argument
(`limit &= usize::MAX >> 1`), i.e. the stored limit is `limit % 2 ^ 63` on a
64-bit target; taking `limit = 2 ^ 63`, which exceeds `isize::MAX = 2 ^ 63 - 1`,
the stored limit is `0`, so appended content `"ab"` of length `2` — far
shorter than the requested limit — is still truncated and the `"..."`
marker still appended. -/
theorem truncate_ctor_masks_top_bit :
    (∀ limit : Nat, truncateCtorLimit limit = limit % 2 ^ 63) ∧
    2 ^ 63 - 1 < 2 ^ 63 ∧ ([97, 98] : List Nat).length < 2 ^ 63 ∧
    truncate_impl [97, 98] 0 (truncateCtorLimit (2 ^ 63)) = Except.ok marker := by
  have hmask : ∀ limit : Nat, truncateCtorLimit limit = limit % 2 ^ 63 := by
    intro limit
    unfold truncateCtorLimit
    have h1 : ((2 ^ 64 - 1 : Nat) >>> 1) = 2 ^ 63 - 1 := by decide
    rw [h1]
    exact Nat.and_pow_two_sub_one_eq_mod limit 63
  refine ⟨hmask, by norm_num, by norm_num, ?_⟩
  rw [hmask (2 ^ 63), Nat.mod_self]
  rfl

/-! ### C4: `Lower::render_escaped` escapes first, then case-folds -/

theorem toNat_ofNat_of_valid {n : Nat} (h : n.isValidChar) :
    (Char.ofNat n).toNat = n := by
  unfold Char.ofNat
  rw [dif_pos h]
  simp [Char.ofNatAux, Char.toNat, UInt32.toNat, BitVec.toNat_ofNatLt]

/-- C4: the escaped render of the `lower` filter first escapes the wrapped
value's output and then case-folds the escaped result; in particular
rendering `"<h1>TITLE</h1>"` through `lower` with escaping yields exactly
`"&lt;h1&gt;title&lt;/h1&gt;"`. -/
theorem lower_render_escaped_escapes_then_folds :
    (∀ (s b : List Char), lowerRenderEscaped (strRenderEscaped s) b =
      Except.ok (b ++ (escapeStr s).map toLowerChar)) ∧
    lowerRenderEscaped (strRenderEscaped "<h1>TITLE</h1>".toList) [] =
      Except.ok "&lt;h1&gt;title&lt;/h1&gt;".toList := by
  constructor
  · intro s b
    simp [lowerRenderEscaped, strRenderEscaped, List.take_left, List.drop_left]
  · rfl

/-! ### C6: case-folded output contains no letters of the folded-away case -/

theorem toUpperChar_not_lower (c : Char) :
    ¬(97 ≤ (toUpperChar c).toNat ∧ (toUpperChar c).toNat ≤ 122) := by
  unfold toUpperChar
  by_cases h : 97 ≤ c.toNat ∧ c.toNat ≤ 122
  · rw [if_pos h]
    rw [toNat_ofNat_of_valid (Or.inl (by omega))]
    omega
  · rw [if_neg h]
    exact h

theorem toLowerChar_not_upper (c : Char) :
    ¬(65 ≤ (toLowerChar c).toNat ∧ (toLowerChar c).toNat ≤ 90) := by
  unfold toLowerChar
  by_cases h : 65 ≤ c.toNat ∧ c.toNat ≤ 90
  · rw [if_pos h]
    rw [toNat_ofNat_of_valid (Or.inl (by omega))]
    omega
  · rw [if_neg h]
    exact h

/-- C6: when the wrapped render appends `t` and succeeds, `Upper::render`
appends the uppercased slice, which contains no lowercase ASCII letter
(code points 97–122); symmetrically `Lower::render` appends the lowercased
slice, which contains no uppercase ASCII letter (65–90). -/
theorem upper_lower_ascii_case (inner : List Char → Except String (List Char))
    (b t : List Char) (h : inner b = Except.ok (b ++ t)) :
    (upperRender inner b = Except.ok (b ++ t.map toUpperChar) ∧
      ∀ c ∈ t.map toUpperChar, ¬(97 ≤ c.toNat ∧ c.toNat ≤ 122)) ∧
    (lowerRender inner b = Except.ok (b ++ t.map toLowerChar) ∧
      ∀ c ∈ t.map toLowerChar, ¬(65 ≤ c.toNat ∧ c.toNat ≤ 90)) := by
  refine ⟨⟨?_, ?_⟩, ?_, ?_⟩
  · simp [upperRender, h, List.take_left, List.drop_left]
  · intro c hc
    obtain ⟨x, _, rfl⟩ := List.mem_map.mp hc
    exact toUpperChar_not_lower x
  · simp [lowerRender, h, List.take_left, List.drop_left]
  · intro c hc
    obtain ⟨x, _, rfl⟩ := List.mem_map.mp hc
    exact toLowerChar_not_upper x

/-- Witness for C6 at the wrapped value appending `"Kx"` to an empty
buffer. -/
theorem upper_lower_ascii_case_witness :
    (upperRender (fun l => Except.ok (l ++ ['K', 'x'])) [] =
        Except.ok ([] ++ (['K', 'x'].map toUpperChar)) ∧
      ∀ c ∈ ['K', 'x'].map toUpperChar, ¬(97 ≤ c.toNat ∧ c.toNat ≤ 122)) ∧
    (lowerRender (fun l => Except.ok (l ++ ['K', 'x'])) [] =
        Except.ok ([] ++ (['K', 'x'].map toLowerChar)) ∧
      ∀ c ∈ ['K', 'x'].map toLowerChar, ¬(65 ≤ c.toNat ∧ c.toNat ≤ 90)) :=
  upper_lower_ascii_case (fun l => Except.ok (l ++ ['K', 'x'])) [] ['K', 'x'] rfl

/-! ### C7, C10: trim -/

theorem rustTrimEnd_cons (c : Char) (cs : List Char) :
    rustTrimEnd (c :: cs) =
      if (rustTrimEnd cs).isEmpty && isRustWhitespace c then []
      else c :: rustTrimEnd cs := rfl

theorem rustTrimEnd_idem (s : List Char) :
    rustTrimEnd (rustTrimEnd s) = rustTrimEnd s := by
  induction s with
  | nil => rfl
  | cons c cs ih =>
    rw [rustTrimEnd_cons]
    by_cases h : (rustTrimEnd cs).isEmpty && isRustWhitespace c
    · rw [if_pos h]
      rfl
    · rw [if_neg h, rustTrimEnd_cons, ih, if_neg h]

theorem rustTrimStart_idem (s : List Char) :
    rustTrimStart (rustTrimStart s) = rustTrimStart s := by
  unfold rustTrimStart
  induction s with
  | nil => rfl
  | cons c cs ih =>
    by_cases h : isRustWhitespace c
    · rw [List.dropWhile_cons_of_pos h]
      exact ih
    · rw [List.dropWhile_cons_of_neg h, List.dropWhile_cons_of_neg h]

theorem rustTrimStart_head_not_ws (s : List Char) :
    rustTrimStart s = [] ∨
      ∃ x xs, rustTrimStart s = x :: xs ∧ isRustWhitespace x = false := by
  unfold rustTrimStart
  induction s with
  | nil => exact Or.inl rfl
  | cons c cs ih =>
    by_cases h : isRustWhitespace c
    · rw [List.dropWhile_cons_of_pos h]
      exact ih
    · rw [List.dropWhile_cons_of_neg h]
      exact Or.inr ⟨c, cs, rfl, Bool.eq_false_iff.mpr h⟩

theorem rustTrim_idem (s : List Char) : rustTrim (rustTrim s) = rustTrim s := by
  unfold rustTrim
  have hstart : rustTrimStart (rustTrimEnd (rustTrimStart s)) =
      rustTrimEnd (rustTrimStart s) := by
    rcases rustTrimStart_head_not_ws s with h | ⟨x, xs, hx, hws⟩
    · rw [h]
      rfl
    · rw [hx, rustTrimEnd_cons]
      by_cases he : (rustTrimEnd xs).isEmpty && isRustWhitespace x
      · rw [if_pos he]
        rfl
      · rw [if_neg he]
        exact List.dropWhile_cons_of_neg (by simp [hws])
  rw [hstart, rustTrimEnd_idem]

/-- C7: trim is idempotent: re-trimming a slice already produced by
`trim_impl` leaves the Buffer contents identical. -/
theorem trim_idempotent (b : List Char) (old_len : Nat) (r : List Char)
    (h : trim_impl b old_len = some r) : trim_impl r old_len = some r := by
  unfold trim_impl at h ⊢
  by_cases hle : old_len ≤ b.length
  · rw [if_pos hle] at h
    injection h with h
    subst h
    have hlen : (b.take old_len).length = old_len := by
      simp
      omega
    rw [if_pos (by simp; omega)]
    rw [List.take_left' hlen, List.drop_left' hlen, rustTrim_idem]
  · rw [if_neg hle] at h
    cases h

/-- Witness for C7: trimming `" a"` gives `"a"`, and re-trimming `"a"`
changes nothing. -/
theorem trim_idempotent_witness : trim_impl ['a'] 0 = some ['a'] :=
  trim_idempotent [' ', 'a'] 0 ['a'] rfl

/-- C10: `trim`'s post-processing has no error path: it is defined exactly
when the buffer's length after the wrapped render is at least the recorded
`old_len`; when the wrapped value net-shrank the buffer the out-of-bounds
slice access `&b.as_str()[old_len..]` panics (modelled by `none`, guarded
in the source only by a `debug_assert!`) rather than returning an `Error`,
and `Trim::render` wraps the post-processing result in `Except.ok`
unconditionally whenever the wrapped render succeeded. -/
theorem trim_no_error_path (b : List Char) (old_len : Nat) :
    ((trim_impl b old_len).isSome ↔ old_len ≤ b.length) ∧
    (∀ (inner : List Char → Except String (List Char)) (c b2 : List Char),
      inner c = Except.ok b2 →
      trimRender inner c = Except.ok (trim_impl b2 c.length)) := by
  constructor
  · unfold trim_impl
    by_cases h : old_len ≤ b.length
    · simp [h]
    · simp [h]
  · intro inner c b2 h
    simp [trimRender, h]

/-- Witness for C10: a wrapped render that net-shrinks the buffer reaches
the panic (`none`), not an `Error`. -/
theorem trim_no_error_path_witness :
    ((trim_impl ([] : List Char) 1).isSome ↔ 1 ≤ ([] : List Char).length) ∧
    trimRender (fun _ => Except.ok []) ['a'] =
      Except.ok (trim_impl [] (['a'] : List Char).length) :=
  ⟨(trim_no_error_path [] 1).1,
    (trim_no_error_path [] 1).2 (fun _ => Except.ok []) ['a'] [] rfl⟩

/-! ### UTF-8 shape validity

`truncate`'s boundary search is byte-level; relating it to "never cuts
inside a multi-byte character" needs the invariant that the Buffer holds
UTF-8 encoded text.  `utf8ValidAux` checks the lead/continuation structure
of the encoding, which is what boundary reasoning needs; every byte
sequence of a Rust `str` satisfies it. -/

/-- UTF-8 continuation byte: `0x80 ≤ x < 0xC0`. -/
def isContByte (x : Nat) : Bool := decide (0x80 ≤ x) && decide (x < 0xC0)

/-- Length of the UTF-8 encoding headed by leading byte `b0`. -/
def charLen (b0 : Nat) : Nat :=
  if b0 < 0x80 then 1 else if b0 < 0xE0 then 2 else if b0 < 0xF0 then 3 else 4

/-- DFA-style UTF-8 shape validator; `k` counts the continuation bytes
still expected by the current character. -/
def utf8ValidAux : List Nat → Nat → Bool
  | [], k => decide (k = 0)
  | b0 :: rest, 0 =>
    if b0 < 0x80 then utf8ValidAux rest 0
    else if 0xC2 ≤ b0 && b0 < 0xF5 then utf8ValidAux rest (charLen b0 - 1)
    else false
  | b0 :: rest, k + 1 => isContByte b0 && utf8ValidAux rest k

/-- A byte list has valid UTF-8 shape. -/
def utf8Valid (b : List Nat) : Bool := utf8ValidAux b 0

theorem utf8ValidAux_nil (k : Nat) : utf8ValidAux [] k = decide (k = 0) := rfl

theorem utf8ValidAux_cons_zero (b0 : Nat) (rest : List Nat) :
    utf8ValidAux (b0 :: rest) 0 =
      if b0 < 0x80 then utf8ValidAux rest 0
      else if 0xC2 ≤ b0 && b0 < 0xF5 then utf8ValidAux rest (charLen b0 - 1)
      else false := rfl

theorem utf8ValidAux_cons_succ (b0 : Nat) (rest : List Nat) (k : Nat) :
    utf8ValidAux (b0 :: rest) (k + 1) = (isContByte b0 && utf8ValidAux rest k) := rfl

theorem utf8ValidAux_append : ∀ (u : List Nat), ∀ (k : Nat), ∀ (v : List Nat),
    utf8ValidAux u k = true → utf8Valid v = true → utf8ValidAux (u ++ v) k = true := by
  intro u
  induction u with
  | nil =>
    intro k v hu hv
    rw [utf8ValidAux_nil] at hu
    simp at hu
    subst hu
    exact hv
  | cons b0 u ih =>
    intro k v hu hv
    match k with
    | 0 =>
      rw [utf8ValidAux_cons_zero] at hu
      rw [List.cons_append, utf8ValidAux_cons_zero]
      by_cases h1 : b0 < 0x80
      · rw [if_pos h1] at hu ⊢
        exact ih 0 v hu hv
      · rw [if_neg h1] at hu ⊢
        by_cases h2 : (decide (0xC2 ≤ b0) && decide (b0 < 0xF5)) = true
        · rw [if_pos h2] at hu ⊢
          exact ih _ v hu hv
        · rw [if_neg h2] at hu
          cases hu
    | k + 1 =>
      rw [utf8ValidAux_cons_succ] at hu
      rw [List.cons_append, utf8ValidAux_cons_succ]
      rw [Bool.and_eq_true] at hu ⊢
      exact ⟨hu.1, ih k v hu.2 hv⟩

theorem utf8ValidAux_cont_structure : ∀ (n : Nat) (rest : List Nat),
    utf8ValidAux rest n = true →
    n ≤ rest.length ∧
    (∀ j, j < n → ∃ c, rest[j]? = some c ∧ isContByte c = true) ∧
    utf8Valid (rest.drop n) = true := by
  intro n
  induction n with
  | zero =>
    intro rest h
    exact ⟨Nat.zero_le _, fun j hj => by omega, h⟩
  | succ n ih =>
    intro rest h
    match rest with
    | [] =>
      rw [utf8ValidAux_nil] at h
      simp at h
    | c :: r =>
      rw [utf8ValidAux_cons_succ, Bool.and_eq_true] at h
      obtain ⟨hlen, hj, hdrop⟩ := ih r h.2
      refine ⟨by simp; omega, fun j hjn => ?_, by simpa using hdrop⟩
      match j with
      | 0 => exact ⟨c, by simp, h.1⟩
      | j + 1 =>
        obtain ⟨d, hd, hdc⟩ := hj j (by omega)
        exact ⟨d, by simpa using hd, hdc⟩

theorem utf8ValidAux_take_cont : ∀ (n : Nat) (rest : List Nat),
    utf8ValidAux rest n = true → utf8ValidAux (rest.take n) n = true := by
  intro n
  induction n with
  | zero => intro rest _; rfl
  | succ n ih =>
    intro rest h
    match rest with
    | [] =>
      rw [utf8ValidAux_nil] at h
      simp at h
    | c :: r =>
      rw [utf8ValidAux_cons_succ, Bool.and_eq_true] at h
      rw [List.take_succ_cons, utf8ValidAux_cons_succ, Bool.and_eq_true]
      exact ⟨h.1, ih r h.2⟩

theorem charLen_bounds (b0 : Nat) : 1 ≤ charLen b0 ∧ charLen b0 ≤ 4 := by
  unfold charLen
  split
  · omega
  · split
    · omega
    · split
      · omega
      · omega

theorem utf8_first_chunk (b0 : Nat) (rest : List Nat)
    (hv : utf8Valid (b0 :: rest) = true) :
    ∃ L, 1 ≤ L ∧ L ≤ 4 ∧ L ≤ rest.length + 1 ∧
      utf8Valid ((b0 :: rest).take L) = true ∧
      utf8Valid ((b0 :: rest).drop L) = true ∧
      ∀ j, 1 ≤ j → j < L → ∃ c, (b0 :: rest)[j]? = some c ∧ isContByte c = true := by
  unfold utf8Valid at hv
  rw [utf8ValidAux_cons_zero] at hv
  by_cases h1 : b0 < 0x80
  · rw [if_pos h1] at hv
    refine ⟨1, le_refl _, by omega, by omega, ?_, ?_, fun j hj1 hj2 => by omega⟩
    · show utf8ValidAux (b0 :: ([] : List Nat)) 0 = true
      rw [utf8ValidAux_cons_zero, if_pos h1]
      rfl
    · simpa [utf8Valid] using hv
  · rw [if_neg h1] at hv
    by_cases h2 : (decide (0xC2 ≤ b0) && decide (b0 < 0xF5)) = true
    · rw [if_pos h2] at hv
      obtain ⟨hlen, hcont, hdrop⟩ :=
        utf8ValidAux_cont_structure (charLen b0 - 1) rest hv
      have hcb := charLen_bounds b0
      refine ⟨charLen b0 - 1 + 1, by omega, by omega, by omega, ?_, ?_, ?_⟩
      · rw [List.take_succ_cons]
        show utf8ValidAux (b0 :: rest.take (charLen b0 - 1)) 0 = true
        rw [utf8ValidAux_cons_zero, if_neg h1, if_pos h2]
        exact utf8ValidAux_take_cont (charLen b0 - 1) rest hv
      · rw [List.drop_succ_cons]
        exact hdrop
      · intro j hj1 hj2
        obtain ⟨c, hc, hcc⟩ := hcont (j - 1) (by omega)
        refine ⟨c, ?_, hcc⟩
        have hj : j = (j - 1) + 1 := by omega
        rw [hj]
        simpa using hc
    · rw [if_neg h2] at hv
      cases hv

theorem isCharBoundary_drop {b : List Nat} {L i : Nat} (hL : L ≤ b.length)
    (hi : L ≤ i) (h : isCharBoundary b i = true) :
    isCharBoundary (b.drop L) (i - L) = true := by
  by_cases h0 : i - L = 0
  · rw [h0]
    exact isCharBoundary_zero _
  · unfold isCharBoundary at h ⊢
    rw [if_neg (by omega)] at h
    rw [if_neg h0]
    have hg : (b.drop L)[i - L]? = b[i]? := by
      rw [List.getElem?_drop]
      congr 1
      omega
    rw [hg]
    cases hbi : b[i]? with
    | some c =>
      rw [hbi] at h
      exact h
    | none =>
      rw [hbi] at h
      simp at h
      simp
      omega

theorem isCharBoundary_lift {b : List Nat} {L j : Nat} (hL : L ≤ b.length)
    (hv : utf8Valid (b.drop L) = true) (h : isCharBoundary (b.drop L) j = true) :
    isCharBoundary b (L + j) = true := by
  by_cases h0 : L + j = 0
  · rw [h0]
    exact isCharBoundary_zero b
  · match j with
    | 0 =>
      unfold isCharBoundary
      rw [if_neg h0]
      cases hd : b.drop L with
      | nil =>
        have hlen : b.length - L = 0 := by
          have := congrArg List.length hd
          simpa using this
        have hnone : b[L + 0]? = none := by
          rw [List.getElem?_eq_none_iff]
          omega
        rw [hnone]
        simp
        omega
      | cons c t =>
        have hsome : b[L + 0]? = some c := by
          rw [← List.getElem?_drop, hd]
          simp
        rw [hsome]
        rw [hd] at hv
        unfold utf8Valid at hv
        rw [utf8ValidAux_cons_zero] at hv
        by_cases hc1 : c < 0x80
        · simp [hc1]
        · rw [if_neg hc1] at hv
          by_cases hc2 : (decide (0xC2 ≤ c) && decide (c < 0xF5)) = true
          · simp at hc2
            simp
            omega
          · rw [if_neg hc2] at hv
            cases hv
    | j + 1 =>
      unfold isCharBoundary at h ⊢
      rw [if_neg (by omega)] at h
      rw [if_neg h0]
      rw [List.getElem?_drop] at h
      cases hbi : b[L + (j + 1)]? with
      | some c =>
        rw [hbi] at h
        exact h
      | none =>
        rw [hbi] at h
        simp at h
        simp
        omega

theorem utf8_boundary_split_fuel (fuel : Nat) : ∀ (b : List Nat) (i : Nat),
    b.length ≤ fuel → utf8Valid b = true → i ≤ b.length → isCharBoundary b i = true →
    utf8Valid (b.take i) = true ∧ utf8Valid (b.drop i) = true := by
  induction fuel with
  | zero =>
    intro b i hf hv hi _
    have hb : b = [] := List.eq_nil_of_length_eq_zero (by omega)
    subst hb
    have hi0 : i = 0 := by simpa using hi
    subst hi0
    exact ⟨hv, hv⟩
  | succ fuel ih =>
    intro b i hf hv hi hb
    match b with
    | [] =>
      have hi0 : i = 0 := by simpa using hi
      subst hi0
      exact ⟨hv, hv⟩
    | b0 :: rest =>
      simp only [List.length_cons] at hf hi
      by_cases hi0 : i = 0
      · subst hi0
        exact ⟨rfl, hv⟩
      · obtain ⟨L, hL1, hL4, hLlen, htake, hdrop, hint⟩ := utf8_first_chunk b0 rest hv
        by_cases hiL : i < L
        · exfalso
          obtain ⟨c, hc, hcc⟩ := hint i (by omega) hiL
          unfold isCharBoundary at hb
          rw [if_neg hi0, hc] at hb
          unfold isContByte at hcc
          simp at hb hcc
          omega
        · push_neg at hiL
          have hbL : L ≤ (b0 :: rest).length := by
            simp
            omega
          have hbsub := isCharBoundary_drop hbL hiL hb
          obtain ⟨ht, hd⟩ := ih ((b0 :: rest).drop L) (i - L)
            (by simp; omega) hdrop (by simp; omega) hbsub
          constructor
          · have hsplit : (b0 :: rest).take i =
                (b0 :: rest).take L ++ ((b0 :: rest).drop L).take (i - L) := by
              conv_lhs => rw [show i = L + (i - L) by omega]
              rw [List.take_add]
            rw [hsplit]
            exact utf8ValidAux_append _ 0 _ htake ht
          · have hsplit : (b0 :: rest).drop i = ((b0 :: rest).drop L).drop (i - L) := by
              rw [List.drop_drop]
              congr 1
              omega
            rw [hsplit]
            exact hd

theorem utf8_boundary_within_fuel (fuel : Nat) : ∀ (b : List Nat) (pos : Nat),
    b.length ≤ fuel → utf8Valid b = true → pos ≤ b.length →
    ∃ j, pos ≤ j ∧ j ≤ pos + 3 ∧ isCharBoundary b j = true := by
  induction fuel with
  | zero =>
    intro b pos hf hv hpos
    have hb : b = [] := List.eq_nil_of_length_eq_zero (by omega)
    subst hb
    have hp0 : pos = 0 := by simpa using hpos
    subst hp0
    exact ⟨0, le_refl _, by omega, isCharBoundary_zero []⟩
  | succ fuel ih =>
    intro b pos hf hv hpos
    by_cases hp0 : pos = 0
    · subst hp0
      exact ⟨0, le_refl _, by omega, isCharBoundary_zero b⟩
    · match b with
      | [] => exact (hp0 (by simpa using hpos)).elim
      | b0 :: rest =>
        simp only [List.length_cons] at hf hpos
        obtain ⟨L, hL1, hL4, hLlen, htake, hdrop, hint⟩ := utf8_first_chunk b0 rest hv
        have hbL : L ≤ (b0 :: rest).length := by
          simp
          omega
        by_cases hpL : pos < L
        · refine ⟨L, by omega, by omega, ?_⟩
          have hlift := isCharBoundary_lift hbL hdrop (isCharBoundary_zero _)
          simpa using hlift
        · push_neg at hpL
          obtain ⟨j, hj1, hj2, hj3⟩ := ih ((b0 :: rest).drop L) (pos - L)
            (by simp; omega) hdrop (by simp; omega)
          exact ⟨L + j, by omega, by omega, isCharBoundary_lift hbL hdrop hj3⟩

theorem utf8Valid_boundary_split {b : List Nat} {i : Nat} (hv : utf8Valid b = true)
    (hi : i ≤ b.length) (h : isCharBoundary b i = true) :
    utf8Valid (b.take i) = true ∧ utf8Valid (b.drop i) = true :=
  utf8_boundary_split_fuel b.length b i (le_refl _) hv hi h

theorem findBoundary_le_add_three {b : List Nat} {pos : Nat}
    (hv : utf8Valid b = true) (hpos : pos ≤ b.length) :
    findBoundary b pos ≤ pos + 3 := by
  obtain ⟨j, hj1, hj2, hj3⟩ :=
    utf8_boundary_within_fuel b.length b pos (le_refl _) hv hpos
  exact le_trans (findBoundary_min hpos hj1 hj3) hj2

/-! ### C2, C1, C5, C8: behaviour of truncate and the common filter frame -/

/-- C2: when the wrapped value's render appended more than `limit` bytes,
`truncate_impl` cuts at the first `is_char_boundary` position at or after
`old_len + limit` — never inside a multi-byte character: both sides of the
cut stay UTF-8 valid — shrinks the buffer to the cut point, and appends
the `"..."` marker. -/
theorem truncate_cuts_at_first_boundary (b : List Nat) (old_len limit cut : Nat)
    (hv : utf8Valid b = true) (hgt : old_len + limit < b.length)
    (hcut : cut = findBoundary b (old_len + limit)) :
    truncate_impl b old_len limit = Except.ok (b.take cut ++ marker) ∧
    old_len + limit ≤ cut ∧ cut ≤ b.length ∧
    isCharBoundary b cut = true ∧
    (∀ j, old_len + limit ≤ j → j < cut → isCharBoundary b j = false) ∧
    utf8Valid (b.take cut) = true ∧ utf8Valid (b.drop cut) = true := by
  subst hcut
  have hpos : old_len + limit ≤ b.length := by omega
  obtain ⟨h1, h2, h3⟩ := findBoundary_spec b (old_len + limit) hpos
  have hle : findBoundary b (old_len + limit) ≤ b.length :=
    findBoundary_le_length b _ hpos
  obtain ⟨ht, hd⟩ := utf8Valid_boundary_split hv hle h2
  refine ⟨?_, h1, hle, h2, h3, ht, hd⟩
  unfold truncate_impl
  rw [if_pos (by omega)]

/-- Witness for C2 on the buffer `"éx"` (bytes `[0xC3, 0xA9, 0x78]`) with
`old_len = 0`, `limit = 1`: the cut lands at byte 2, just past the
two-byte `é`. -/
theorem truncate_cuts_at_first_boundary_witness :
    truncate_impl [195, 169, 120] 0 1 =
      Except.ok (([195, 169, 120] : List Nat).take 2 ++ marker) ∧
    0 + 1 ≤ 2 ∧ 2 ≤ ([195, 169, 120] : List Nat).length ∧
    isCharBoundary [195, 169, 120] 2 = true ∧
    (∀ j, 0 + 1 ≤ j → j < 2 → isCharBoundary [195, 169, 120] j = false) ∧
    utf8Valid (([195, 169, 120] : List Nat).take 2) = true ∧
    utf8Valid (([195, 169, 120] : List Nat).drop 2) = true :=
  truncate_cuts_at_first_boundary [195, 169, 120] 0 1 2 (by decide) (by decide)
    (by decide)

/-- Counterexample to C1 as stated: on the UTF-8 buffer `"éx"` (bytes
`[0xC3, 0xA9, 0x78]`) with `old_len = 0` and `limit = 1`, `truncate_impl`
succeeds and the appended content excluding the marker is `[0xC3, 0xA9]`,
whose length `2` exceeds `limit = 1`. -/
theorem truncate_length_can_exceed_limit :
    truncate_impl [195, 169, 120] 0 1 = Except.ok ([195, 169] ++ marker) ∧
    utf8Valid [195, 169, 120] = true ∧
    ¬(([195, 169] : List Nat).length ≤ 1) := by
  refine ⟨rfl, by decide, by decide⟩

/-- C1 (amended): for a UTF-8 valid buffer, a successful
`truncate_impl b old_len limit` leaves `b.take old_len` followed by a
content slice, possibly followed by the `"..."` marker, and the content
length exceeds `limit` by at most 3 bytes — the remainder of the
multi-byte character the byte position `old_len + limit` fell inside of;
the unamended bound `≤ limit` fails, see
`truncate_length_can_exceed_limit`. -/
theorem truncate_output_length_bounded (b : List Nat) (old_len limit : Nat)
    (r : List Nat) (hv : utf8Valid b = true) (hle : old_len ≤ b.length)
    (hr : truncate_impl b old_len limit = Except.ok r) :
    ∃ content,
      (r = b.take old_len ++ content ∨ r = b.take old_len ++ content ++ marker) ∧
      content.length ≤ limit + 3 := by
  unfold truncate_impl at hr
  by_cases hgt : b.length > old_len + limit
  · rw [if_pos hgt] at hr
    injection hr with hr
    have hpos : old_len + limit ≤ b.length := by omega
    have hcut3 : findBoundary b (old_len + limit) ≤ old_len + limit + 3 :=
      findBoundary_le_add_three hv hpos
    have hcutge : old_len + limit ≤ findBoundary b (old_len + limit) :=
      (findBoundary_spec b _ hpos).1
    have hcutle : findBoundary b (old_len + limit) ≤ b.length :=
      findBoundary_le_length b _ hpos
    refine ⟨(b.take (findBoundary b (old_len + limit))).drop old_len, Or.inr ?_, ?_⟩
    · have hsplit : b.take (findBoundary b (old_len + limit)) =
          b.take old_len ++ (b.take (findBoundary b (old_len + limit))).drop old_len := by
        conv_lhs =>
          rw [← List.take_append_drop old_len (b.take (findBoundary b (old_len + limit)))]
        rw [List.take_take, min_eq_left (by omega)]
      rw [← hr]
      conv_lhs => rw [hsplit]
    · simp only [List.length_drop, List.length_take]
      omega
  · rw [if_neg hgt, if_pos (by omega)] at hr
    injection hr with hr
    refine ⟨b.drop old_len, Or.inl ?_, ?_⟩
    · rw [← hr, List.take_append_drop]
    · simp only [List.length_drop]
      omega

/-- Witness for C1 (amended): content `"a"` under limit 2 is returned
unchanged, within the bound. -/
theorem truncate_output_length_bounded_witness :
    ∃ content,
      (([97] : List Nat) = ([97] : List Nat).take 0 ++ content ∨
        ([97] : List Nat) = ([97] : List Nat).take 0 ++ content ++ marker) ∧
      content.length ≤ 2 + 3 :=
  truncate_output_length_bounded [97] 0 2 [97] (by decide) (by decide) rfl

/-- C5: the `"..."` marker is appended iff the content appended by the
wrapped value exceeded `limit`: when `b.length - old_len > limit` the
result is the cut buffer plus marker, and when the appended slice is at or
under the limit the buffer is left untouched. -/
theorem truncate_marker_iff_exceeds (b : List Nat) (old_len limit : Nat)
    (hle : old_len ≤ b.length) :
    (limit < b.length - old_len →
      truncate_impl b old_len limit =
        Except.ok (b.take (findBoundary b (old_len + limit)) ++ marker)) ∧
    (b.length - old_len ≤ limit → truncate_impl b old_len limit = Except.ok b) := by
  constructor
  · intro h
    unfold truncate_impl
    rw [if_pos (by omega)]
  · intro h
    unfold truncate_impl
    rw [if_neg (by omega), if_pos (by omega)]

/-- Witness for C5: `"ab"` truncated to 1 gains the marker; `"ab"`
truncated to 2 is untouched. -/
theorem truncate_marker_iff_exceeds_witness :
    truncate_impl [97, 98] 0 1 =
      Except.ok (([97, 98] : List Nat).take (findBoundary [97, 98] (0 + 1)) ++ marker) ∧
    truncate_impl [97, 98] 0 2 = Except.ok [97, 98] :=
  ⟨(truncate_marker_iff_exceeds [97, 98] 0 1 (by decide)).1 (by decide),
    (truncate_marker_iff_exceeds [97, 98] 0 2 (by decide)).2 (by decide)⟩

/-- C8: each filter post-processes only the slice the wrapped value just
appended: when the wrapped render only appends (and succeeds), the
previous buffer contents `b` — in particular every byte at positions
`[0, start)` — reappear unchanged at the front of the filter's output. -/
theorem filters_only_rewrite_appended_slice :
    (∀ (inner : List Char → Except String (List Char)) (b t : List Char),
      inner b = Except.ok (b ++ t) →
      ∃ u, upperRender inner b = Except.ok (b ++ u)) ∧
    (∀ (inner : List Char → Except String (List Char)) (b t : List Char),
      inner b = Except.ok (b ++ t) →
      ∃ u, lowerRender inner b = Except.ok (b ++ u)) ∧
    (∀ (inner : List Char → Except String (List Char)) (b t : List Char),
      inner b = Except.ok (b ++ t) →
      ∃ u, trimRender inner b = Except.ok (some (b ++ u))) ∧
    (∀ (bb tb : List Nat) (limit : Nat) (r : List Nat),
      truncate_impl (bb ++ tb) bb.length limit = Except.ok r →
      ∃ u, r = bb ++ u) := by
  refine ⟨?_, ?_, ?_, ?_⟩
  · intro inner b t h
    exact ⟨t.map toUpperChar,
      by simp [upperRender, h, List.take_left, List.drop_left]⟩
  · intro inner b t h
    exact ⟨t.map toLowerChar,
      by simp [lowerRender, h, List.take_left, List.drop_left]⟩
  · intro inner b t h
    have himpl : trim_impl (b ++ t) b.length = some (b ++ rustTrim t) := by
      unfold trim_impl
      rw [if_pos (by simp), List.take_left, List.drop_left]
    exact ⟨rustTrim t, by simp [trimRender, h, himpl]⟩
  · intro bb tb limit r h
    unfold truncate_impl at h
    by_cases hgt : (bb ++ tb).length > bb.length + limit
    · rw [if_pos hgt] at h
      injection h with h
      have hge : bb.length ≤ findBoundary (bb ++ tb) (bb.length + limit) :=
        le_trans (by omega)
          (findBoundary_spec (bb ++ tb) (bb.length + limit) (by omega)).1
      refine ⟨tb.take (findBoundary (bb ++ tb) (bb.length + limit) - bb.length) ++
        marker, ?_⟩
      rw [← h, List.take_append_eq_append_take,
        List.take_of_length_le (by omega), List.append_assoc]
    · rw [if_neg hgt, if_pos (by simp)] at h
      injection h with h
      exact ⟨tb, h.symm⟩

/-- Witness for C8, one concrete instance per filter. -/
theorem filters_only_rewrite_appended_slice_witness :
    (∃ u, upperRender (fun l => Except.ok (l ++ ['a'])) ['b'] =
      Except.ok (['b'] ++ u)) ∧
    (∃ u, lowerRender (fun l => Except.ok (l ++ ['a'])) ['b'] =
      Except.ok (['b'] ++ u)) ∧
    (∃ u, trimRender (fun l => Except.ok (l ++ ['a'])) ['b'] =
      Except.ok (some (['b'] ++ u))) ∧
    (∃ u, ([97, 98, 46, 46, 46] : List Nat) = [97] ++ u) :=
  ⟨filters_only_rewrite_appended_slice.1 (fun l => Except.ok (l ++ ['a'])) ['b']
      ['a'] rfl,
    filters_only_rewrite_appended_slice.2.1 (fun l => Except.ok (l ++ ['a'])) ['b']
      ['a'] rfl,
    filters_only_rewrite_appended_slice.2.2.1 (fun l => Except.ok (l ++ ['a'])) ['b']
      ['a'] rfl,
    filters_only_rewrite_appended_slice.2.2.2 [97] [98, 99] 1 [97, 98, 46, 46, 46]
      rfl⟩

end Sailfish
